import Mathlib

/-
Verification of the Portfolio_Optimizer repository.

Shallow embedding of the code in:
  src/domain/portfolio/optimizer.py   (MarkowitzOptimizer and the two strategies)
  src/services/portfolio_service.py   (PortfolioService.create_optimized_portfolio
                                       and _adjust_shares_for_target)

Python floats are modelled as exact rationals; Python ints as Int/Nat.
-/

set_option maxRecDepth 4000

namespace PortfolioOptimizer

/-! ## Risk profiles (optimizer.py, lines 264-289) -/

/-- The three risk levels accepted by `MarkowitzOptimizer` (keys of the dict
returned by `initialize_risk_params`). -/
inductive RiskLevel
  | low
  | medium
  | high
deriving DecidableEq

/-- One entry of the risk-parameter table:
`{max_weight, min_stocks, risk_aversion, volatility_penalty}`. -/
structure RiskParams where
  max_weight : ℚ
  min_stocks : ℤ
  risk_aversion : ℚ
  volatility_penalty : ℚ
deriving DecidableEq

/-- `MarkowitzOptimizer.initialize_risk_params` (optimizer.py lines 264-275).
The method returns a fresh dict literal on every call; we model the dict as a
function from the key. -/
def initialize_risk_params : RiskLevel → RiskParams
  | .low => { max_weight := 0.15, min_stocks := 8, risk_aversion := 1.5, volatility_penalty := 1.5 }
  | .medium => { max_weight := 0.25, min_stocks := 5, risk_aversion := 1.0, volatility_penalty := 1.0 }
  | .high => { max_weight := 0.35, min_stocks := 3, risk_aversion := 0.5, volatility_penalty := 0.5 }

/-- `MarkowitzOptimizer.adjust_for_investment_period` (optimizer.py lines 277-289),
expressed as the pure effect of the in-place updates on the entry
`risk_params[risk_level]`.  `investment_period` is a Python int. -/
def adjust_for_investment_period (p : RiskParams) (investment_period : ℤ) : RiskParams :=
  if investment_period > 36 then
    { p with risk_aversion := p.risk_aversion * 0.8,
             volatility_penalty := p.volatility_penalty * 0.8 }
  else if investment_period < 6 then
    { p with risk_aversion := p.risk_aversion * 1.5,
             volatility_penalty := p.volatility_penalty * 1.5,
             max_weight := p.max_weight * 0.8,
             min_stocks := p.min_stocks + 2 }
  else p

/-- The risk parameters observed for level `level` after `MarkowitzOptimizer.__init__`
ran with `(risk_level, investment_period)`: `__init__` stores a fresh table and then
`adjust_for_investment_period` rewrites only the `risk_level` entry of that
per-instance table (optimizer.py lines 231-236, 277-289). -/
def instance_risk_table (risk_level : RiskLevel) (investment_period : ℤ) :
    RiskLevel → RiskParams :=
  fun l =>
    if l = risk_level then adjust_for_investment_period (initialize_risk_params l) investment_period
    else initialize_risk_params l

/-- The parameters a constructed optimizer actually uses:
`self.risk_params[self.risk_level]` (optimizer.py line 326). -/
def derived_risk_params (risk_level : RiskLevel) (investment_period : ℤ) : RiskParams :=
  instance_risk_table risk_level investment_period risk_level

/-- A sequence of optimizer constructions, each recorded by the risk parameters it
derives.  Each `__init__` call invokes `initialize_risk_params()` afresh (a dict
literal, optimizer.py lines 271-275), so no state flows from one construction to
the next; the sequence is therefore a map over the requests. -/
def construction_sequence (reqs : List (RiskLevel × ℤ)) : List RiskParams :=
  reqs.map (fun r => derived_risk_params r.1 r.2)

/-- Modelled from the spec (claim C5's words), for comparison with the code-derived
`derived_risk_params`: base table `Low: .15, 8, 1.5, 1.5; Medium: .25, 5, 1.0, 1.0;
High: .35, 3, 0.5, 0.5`; horizon > 36 multiplies risk_aversion and
volatility_penalty by 0.8; horizon < 6 multiplies both by 1.5, multiplies
max_weight by 0.8 and increases min_active_positions by 2; otherwise unchanged. -/
def spec_derived_risk_params (risk_level : RiskLevel) (horizon : ℤ) : RiskParams :=
  let base : RiskParams :=
    match risk_level with
    | .low => { max_weight := 0.15, min_stocks := 8, risk_aversion := 1.5, volatility_penalty := 1.5 }
    | .medium => { max_weight := 0.25, min_stocks := 5, risk_aversion := 1.0, volatility_penalty := 1.0 }
    | .high => { max_weight := 0.35, min_stocks := 3, risk_aversion := 0.5, volatility_penalty := 0.5 }
  if 36 < horizon then
    { base with risk_aversion := base.risk_aversion * 0.8,
                volatility_penalty := base.volatility_penalty * 0.8 }
  else if horizon < 6 then
    { max_weight := base.max_weight * 0.8,
      min_stocks := base.min_stocks + 2,
      risk_aversion := base.risk_aversion * 1.5,
      volatility_penalty := base.volatility_penalty * 1.5 }
  else base

/-! ## Weight post-processing shared by both strategies
(optimizer.py lines 79-86 and 173-180) -/

/-- Python's `round(x, 4)`; ties are rounded here half-up (Mathlib `round`),
Python rounds ties half-even — the two agree away from exact ties and all facts
proved below hold for either convention. -/
def round4 (x : ℚ) : ℚ := (round (x * 10000) : ℤ) / 10000

/-- Python's `round(x, 2)`. -/
def round2 (x : ℚ) : ℚ := (round (x * 100) : ℤ) / 100

/-- Sum of the weight values of a symbol-to-weight association list. -/
def valsSum (l : List (String × ℚ)) : ℚ := (l.map (fun p => p.2)).sum

/-- `{s: round(w, 4) for s, w in zip(stock_symbols, optimal_weights) if w > 0.005}`
(optimizer.py line 83 / 177), with the zip already performed. -/
def filterRoundWeights (pairs : List (String × ℚ)) : List (String × ℚ) :=
  (pairs.filter (fun p => decide ((0.005 : ℚ) < p.2))).map (fun p => (p.1, round4 p.2))

/-- Lines 84-86 / 178-180: if the surviving total is below 0.999, divide every
surviving (already rounded) weight by that total and round again. -/
def renormalizeWeights (l : List (String × ℚ)) : List (String × ℚ) :=
  if valsSum l < 0.999 then l.map (fun p => (p.1, round4 (p.2 / valsSum l))) else l

/-- The full filter-and-normalize post-processing applied to the raw solver
weights by both strategies. -/
def filterNormalizeWeights (pairs : List (String × ℚ)) : List (String × ℚ) :=
  renormalizeWeights (filterRoundWeights pairs)

/-- `sharpe_ratio = (exp_return - risk_free_rate) / exp_volatility if exp_volatility > 0 else 0`
with `risk_free_rate = 0.02` (optimizer.py line 80 / 174). -/
def sharpeRatio (exp_return exp_volatility : ℚ) : ℚ :=
  if 0 < exp_volatility then (exp_return - 0.02) / exp_volatility else 0

/-- Result record of one strategy call (`weights`, metrics, `success` flag). -/
structure StratResult where
  weights : List (String × ℚ)
  expected_return : ℚ
  volatility : ℚ
  sharpe_ratio : ℚ
  success : Bool
deriving DecidableEq

/-- The success-branch result built by both strategies (optimizer.py lines 79-94 /
170-188) from the raw solver weights and the performance evaluation. -/
def buildSuccessResult (stock_symbols : List String) (optimal_weights : List ℚ)
    (exp_return exp_volatility : ℚ) : StratResult :=
  { weights := filterNormalizeWeights (stock_symbols.zip optimal_weights)
    expected_return := round2 exp_return
    volatility := round2 exp_volatility
    sharpe_ratio := round2 (sharpeRatio exp_return exp_volatility)
    success := true }

/-! ## ConvexStrategy objective return vs. reported return
(optimizer.py lines 67 and 301-303) -/

/-- Dot product of the exponentially-weighted mean-return vector with a weight
vector (`ewm_returns @ w`). -/
def dotProduct (m w : List ℚ) : ℚ := (List.zipWith (fun a b => a * b) m w).sum

/-- The annualized-return term of the CVXPY objective:
`annualized_return = 12 * (ewm_returns @ w)` (optimizer.py line 67). -/
def cvxpyAnnualizedReturn (ewm_returns w : List ℚ) : ℚ :=
  12 * dotProduct ewm_returns w

/-- The annualization used by `calculate_performance`:
`annual_return = (1 + mean_monthly_return) ** 12 - 1` (optimizer.py line 303). -/
def compoundedAnnualReturn (mean_monthly_return : ℚ) : ℚ :=
  (1 + mean_monthly_return) ^ 12 - 1

/-! ## Strategy selection (optimizer.py lines 315-349) -/

/-- Tag recording which concrete strategy was invoked. -/
inductive StrategyTag
  | convex
  | heuristic
deriving DecidableEq

/-- `MarkowitzOptimizer.optimize_portfolio` routing (lines 325-349), with the two
strategies abstracted as call oracles and the invocations logged in order:
`num_stocks <= 20` tries CVXPY and falls back to SciPy when `success` is false;
otherwise SciPy is called directly. -/
def optimize_portfolio_route (stock_symbols : List String)
    (cvxpy_strategy scipy_strategy : List String → StratResult) :
    StratResult × List StrategyTag :=
  let num_stocks := stock_symbols.length
  if num_stocks ≤ 20 then
    let result := cvxpy_strategy stock_symbols
    if result.success then (result, [.convex])
    else (scipy_strategy stock_symbols, [.convex, .heuristic])
  else
    (scipy_strategy stock_symbols, [.heuristic])

/-! ## Discrete allocation (portfolio_service.py, lines 11-118) -/

/-- Python's `int()` conversion of a float: truncation toward zero. -/
def truncQ (x : ℚ) : ℤ := if 0 ≤ x then ⌊x⌋ else -⌊-x⌋

/-- One entry of `stock_data`:
`{'symbol', 'shares', 'price', 'amount', 'weight'}` (portfolio_service.py lines 52-58). -/
structure Line where
  symbol : String
  shares : ℕ
  price : ℚ
  amount : ℚ
  weight : ℚ
deriving DecidableEq

/-- `sum(s['amount'] for s in stock_data)`. -/
def totalInvested (stock_data : List Line) : ℚ :=
  (stock_data.map (fun s => s.amount)).sum

/-- Errors the Python allocation code can raise: `KeyError` from
`current_prices[symbol]` and `ZeroDivisionError` from a division. -/
inductive AllocError
  | keyError (symbol : String)
  | zeroDivision
deriving DecidableEq

/-- The initial pass of `create_optimized_portfolio` (portfolio_service.py lines
43-59): for each weighted symbol look up the price (`KeyError` if absent), compute
`shares = int(target_amount / price)` (`ZeroDivisionError` if the price is zero),
and keep the line only when `shares > 0`. -/
def initial_pass (current_prices : String → Option ℚ) (investment : ℚ) :
    List (String × ℚ) → Except AllocError (List Line)
  | [] => .ok []
  | (symbol, weight) :: rest =>
    match current_prices symbol with
    | none => .error (.keyError symbol)
    | some price =>
      if price = 0 then .error .zeroDivision
      else
        let target_amount := weight * investment
        let shares : ℤ := truncQ (target_amount / price)
        match initial_pass current_prices investment rest with
        | .error e => .error e
        | .ok lines =>
          if 0 < shares then
            .ok ({ symbol := symbol, shares := shares.toNat, price := price,
                   amount := (shares.toNat : ℚ) * price, weight := weight } :: lines)
          else .ok lines

/-- `stock_data.sort(key=lambda x: x['weight'], reverse=True)`. -/
def sortByWeightDesc (stock_data : List Line) : List Line :=
  List.insertionSort (fun a b => b.weight ≤ a.weight) stock_data

/-- `stock_data.sort(key=lambda x: x['weight'])`. -/
def sortByWeightAsc (stock_data : List Line) : List Line :=
  List.insertionSort (fun a b => a.weight ≤ b.weight) stock_data

/-- The scan inside the fill-up loop (portfolio_service.py lines 93-101): walk the
sorted list and add one share to the first stock whose
`total_invested + price` stays within `max_amount`; `none` when no stock can
accept a share. `total_invested` is the value computed before the scan. -/
def add_share_to_first (max_amount total_invested : ℚ) : List Line → Option (List Line)
  | [] => none
  | stock :: rest =>
    if total_invested + stock.price ≤ max_amount then
      some ({ stock with
                shares := stock.shares + 1
                amount := ((stock.shares + 1 : ℕ) : ℚ) * stock.price } :: rest)
    else
      match add_share_to_first max_amount total_invested rest with
      | none => none
      | some rest2 => some (stock :: rest2)

/-- The fill-up `while` loop of `_adjust_shares_for_target` (portfolio_service.py
lines 89-104), indexed by fuel.  The Boolean is `true` when the loop exited
through one of its own stop conditions (and `false` only on fuel exhaustion,
which corresponds to no Python behaviour and is proved unreachable below for
positive prices). -/
def fill_up_pass (investment : ℚ) : ℕ → List Line → List Line × Bool
  | 0, stock_data => (stock_data, false)
  | fuel + 1, stock_data =>
    if totalInvested stock_data < 0.90 * investment then
      match add_share_to_first (1.02 * investment)
          (totalInvested (sortByWeightDesc stock_data)) (sortByWeightDesc stock_data) with
      | none => (sortByWeightDesc stock_data, true)
      | some added =>
        if 1.02 * investment ≤ totalInvested added then (added, true)
        else fill_up_pass investment fuel added
    else (stock_data, true)

/-- The inner `while` of the trim pass (portfolio_service.py lines 110-114) for one
stock, recursing on its share count: while the total (`others + amount`) exceeds
`max_amount` and shares remain, remove one share.  Returns the final
`(shares, amount)`. -/
def trim_shares_loop (max_amount others price : ℚ) : ℕ → ℚ → ℕ × ℚ
  | 0, amount => (0, amount)
  | s + 1, amount =>
    if max_amount < others + amount then
      trim_shares_loop max_amount others price s ((s : ℚ) * price)
    else (s + 1, amount)

/-- The outer `for` of the trim pass (portfolio_service.py lines 108-116) over the
ascending-sorted list, with `done` holding the already visited stocks in reverse
order; it breaks as soon as the total is within `max_amount`. -/
def trim_loop (max_amount : ℚ) (done : List Line) : List Line → List Line
  | [] => done.reverse
  | stock :: rest =>
    if totalInvested done + totalInvested rest +
        (trim_shares_loop max_amount (totalInvested done + totalInvested rest)
          stock.price stock.shares stock.amount).2 ≤ max_amount then
      done.reverse ++
        ({ stock with
             shares := (trim_shares_loop max_amount (totalInvested done + totalInvested rest)
               stock.price stock.shares stock.amount).1
             amount := (trim_shares_loop max_amount (totalInvested done + totalInvested rest)
               stock.price stock.shares stock.amount).2 } :: rest)
    else
      trim_loop max_amount
        ({ stock with
             shares := (trim_shares_loop max_amount (totalInvested done + totalInvested rest)
               stock.price stock.shares stock.amount).1
             amount := (trim_shares_loop max_amount (totalInvested done + totalInvested rest)
               stock.price stock.shares stock.amount).2 } :: done) rest

/-- The trim pass (portfolio_service.py lines 107-116): entered only when the
total exceeds `1.02 * investment`. -/
def trim_pass (investment : ℚ) (stock_data : List Line) : List Line :=
  if 1.02 * investment < totalInvested stock_data then
    trim_loop (1.02 * investment) [] (sortByWeightAsc stock_data)
  else stock_data

/-- `PortfolioService._adjust_shares_for_target` (lines 85-118): the fill-up loop
followed by the trim pass.  The Boolean reports normal exit of the fill-up loop. -/
def adjust_shares_for_target (investment : ℚ) (fuel : ℕ) (stock_data : List Line) :
    List Line × Bool :=
  let r := fill_up_pass investment fuel stock_data
  (trim_pass investment r.1, r.2)

/-- Smallest price appearing in `stock_data` (1 for an empty list); used only to
compute a fuel bound that provably dominates the fill-up loop's running time. -/
def minPrice : List Line → ℚ
  | [] => 1
  | [l] => l.price
  | l :: l2 :: ls => min l.price (minPrice (l2 :: ls))

/-- A fuel bound sufficient for the fill-up loop whenever all prices are positive
(proved below): the band gap divided by the smallest price, plus slack. -/
def sufficient_fuel (investment : ℚ) (stock_data : List Line) : ℕ :=
  (⌊(0.90 * investment - totalInvested stock_data) / minPrice stock_data⌋ + 1).toNat + 1

/-- Invariant of the allocation state: every line's price is at least `pmin` and
its stored `amount` is consistent (`amount = shares * price`), as established by
the initial pass and preserved by every share adjustment. -/
def linesGood (pmin : ℚ) (d : List Line) : Prop :=
  ∀ l ∈ d, pmin ≤ l.price ∧ l.amount = (l.shares : ℚ) * l.price

/-- The stop conditions of the fill-up loop, read off the state it exits with:
the lower band was reached, no stock can accept a share within the upper band,
or the upper band was hit exactly by the last addition. -/
def fillUpStopped (investment : ℚ) (d : List Line) : Prop :=
  0.90 * investment ≤ totalInvested d ∨
  add_share_to_first (1.02 * investment) (totalInvested d) d = none ∨
  1.02 * investment ≤ totalInvested d

/-- The record returned by `create_optimized_portfolio` (allocation part,
portfolio_service.py lines 77-83). -/
structure AllocationResult where
  stock_data : List Line
  total_invested : ℚ
  remaining : ℚ
deriving DecidableEq

/-- The allocation part of `PortfolioService.create_optimized_portfolio`
(portfolio_service.py lines 36-83), i.e. everything after the optimizer returned
`optimal_portfolio['weights']`: the initial pass, `_adjust_shares_for_target`,
and the final weight recomputation (which divides by the new total and raises
`ZeroDivisionError` when stocks are held but the total is zero). -/
def create_optimized_portfolio_alloc (weights : List (String × ℚ))
    (current_prices : String → Option ℚ) (investment : ℚ) :
    Except AllocError AllocationResult :=
  match initial_pass current_prices investment weights with
  | .error e => .error e
  | .ok stock_data =>
    let adjusted := (adjust_shares_for_target investment
      (sufficient_fuel investment stock_data) stock_data).1
    let total := totalInvested adjusted
    if adjusted ≠ [] ∧ total = 0 then .error .zeroDivision
    else
      .ok { stock_data := adjusted.map (fun s => { s with weight := s.amount / total }),
            total_invested := total,
            remaining := investment - total }

/-! ## Returns cleaning (optimizer.py, lines 241-262) -/

/-- A pandas cell value: a finite float, NaN, or ±infinity. -/
inductive RVal
  | num (q : ℚ)
  | nan
  | inf
  | ninf
deriving DecidableEq

/-- Whether a cell holds a finite value. -/
def RVal.isNum : RVal → Bool
  | .num _ => true
  | _ => false

/-- `returns_data.replace([np.inf, -np.inf], np.nan)` on one cell. -/
def replaceInfWithNan : RVal → RVal
  | .inf => .nan
  | .ninf => .nan
  | v => v

/-- The finite values of a column (pandas reductions skip NaN). -/
def numsOf (col : List RVal) : List ℚ :=
  col.filterMap (fun v => match v with | .num q => some q | _ => none)

/-- `cleaned_data[col].mean()`: mean of the non-NaN entries, NaN when there are
none. -/
def colMean (col : List RVal) : RVal :=
  let ns := numsOf col
  if ns.length = 0 then .nan else .num (ns.sum / (ns.length : ℚ))

/-- `fillna(m)` on one cell. -/
def fillnaVal (m : RVal) : RVal → RVal
  | .nan => m
  | v => v

/-- `cleaned_data[col].quantile(q)` on the finite entries: pandas linear
interpolation between order statistics at position `q * (n - 1)`. -/
def quantileQ (q : ℚ) (xs : List ℚ) : ℚ :=
  let s := List.insertionSort (fun a b => a ≤ b) xs
  let n := s.length
  if n = 0 then 0
  else
    let pos : ℚ := q * ((n : ℚ) - 1)
    let i : ℕ := (⌊pos⌋).toNat
    let lo := s.getD i 0
    let hi := s.getD (min (i + 1) (n - 1)) 0
    lo + (pos - (i : ℚ)) * (hi - lo)

/-- `clip(q_low, q_high)` on one cell (NaN passes through unchanged). -/
def clipVal (lo hi : ℚ) : RVal → RVal
  | .num x => .num (max lo (min x hi))
  | v => v

/-- `MarkowitzOptimizer.clean_returns_data` on a single column (optimizer.py lines
251-260): replace ±inf by NaN, fill NaN with the column mean, then clip at the
1st and 99th percentiles. -/
def cleanColumn (col : List RVal) : List RVal :=
  let c1 := col.map replaceInfWithNan
  let m := colMean c1
  let c2 := c1.map (fillnaVal m)
  let lo := quantileQ 0.01 (numsOf c2)
  let hi := quantileQ 0.99 (numsOf c2)
  c2.map (clipVal lo hi)

/-- `MarkowitzOptimizer.clean_returns_data` on the whole matrix, represented as
its list of columns (every step of the Python code acts column-wise). -/
def clean_returns_data (columns : List (List RVal)) : List (List RVal) :=
  columns.map cleanColumn

/-! ## Theorems -/

/-- C1: for every optimization request, if the universe size is at most 20 then
ConvexStrategy (CVXPY) is attempted first and HeuristicStrategy (SciPy) is
invoked only when the ConvexStrategy attempt reports failure; if the universe
size exceeds 20, HeuristicStrategy is invoked directly and ConvexStrategy is
never invoked. -/
theorem strategy_selector_policy (stock_symbols : List String)
    (cvxpy_strategy scipy_strategy : List String → StratResult) :
    (stock_symbols.length ≤ 20 →
      (optimize_portfolio_route stock_symbols cvxpy_strategy scipy_strategy).2 =
        (if (cvxpy_strategy stock_symbols).success then [StrategyTag.convex]
         else [StrategyTag.convex, StrategyTag.heuristic])) ∧
    (20 < stock_symbols.length →
      (optimize_portfolio_route stock_symbols cvxpy_strategy scipy_strategy).2 =
        [StrategyTag.heuristic]) := by
  constructor
  · intro h
    rw [optimize_portfolio_route]
    simp only [if_pos h]
    by_cases hs : (cvxpy_strategy stock_symbols).success
    · simp [hs]
    · simp [hs]
  · intro h
    rw [optimize_portfolio_route]
    simp only [if_neg (Nat.not_le.mpr h)]

/-- Witness for C1 at concrete inputs: a 25-symbol universe never invokes
ConvexStrategy; a 1-symbol universe tries ConvexStrategy and falls back when
it fails. -/
theorem strategy_selector_policy_witness :
    (optimize_portfolio_route (List.replicate 25 "A")
        (fun _ => ⟨[], 0, 0, 0, true⟩) (fun _ => ⟨[], 0, 0, 0, true⟩)).2 =
      [StrategyTag.heuristic] ∧
    (optimize_portfolio_route ["A"]
        (fun _ => ⟨[], 0, 0, 0, false⟩) (fun _ => ⟨[], 0, 0, 0, true⟩)).2 =
      [StrategyTag.convex, StrategyTag.heuristic] := by
  constructor
  · exact (strategy_selector_policy (List.replicate 25 "A") _ _).2 (by simp)
  · rw [(strategy_selector_policy ["A"]
      (fun _ => ⟨[], 0, 0, 0, false⟩) (fun _ => ⟨[], 0, 0, 0, true⟩)).1 (by simp)]
    rfl

/-- C5: the horizon adjustment of a risk profile agrees with the function stated
in the spec (base table `Low: .15, 8, 1.5, 1.5; Medium: .25, 5, 1.0, 1.0;
High: .35, 3, 0.5, 0.5`; > 36 months scales risk_aversion and volatility_penalty
by 0.8; < 6 months scales both by 1.5, scales max_weight by 0.8 and adds 2 to
min_active_positions; otherwise unchanged). -/
theorem risk_profile_horizon_adjustment (level : RiskLevel) (horizon : ℤ) :
    derived_risk_params level horizon = spec_derived_risk_params level horizon := by
  cases level <;>
    simp only [derived_risk_params, instance_risk_table, if_pos,
      initialize_risk_params, adjust_for_investment_period, spec_derived_risk_params]

/-- C6: risk-profile derivation never compounds across requests: a sequence of
optimizer constructions yields, for its last request, exactly the fresh
adjustment of the base-table entry, whatever constructions happened before
(each `__init__` re-creates the table, so no shared table is mutated). -/
theorem risk_params_no_cross_request_compounding
    (previous : List (RiskLevel × ℤ)) (level : RiskLevel) (horizon : ℤ) :
    construction_sequence (previous ++ [(level, horizon)]) =
      construction_sequence previous ++
        [adjust_for_investment_period (initialize_risk_params level) horizon] := by
  simp [construction_sequence, derived_risk_params, instance_risk_table]

/-- C10: in both strategies the Sharpe-ratio division is guarded: whenever the
computed volatility is not strictly positive, the guard takes the else-branch
and the returned `sharpe_ratio` is 0. -/
theorem sharpe_ratio_zero_volatility_guard (stock_symbols : List String)
    (optimal_weights : List ℚ) (exp_return exp_volatility : ℚ)
    (h : exp_volatility ≤ 0) :
    sharpeRatio exp_return exp_volatility = 0 ∧
    (buildSuccessResult stock_symbols optimal_weights exp_return exp_volatility).sharpe_ratio
      = 0 := by
  have h1 : sharpeRatio exp_return exp_volatility = 0 := by
    rw [sharpeRatio, if_neg (not_lt.mpr h)]
  refine ⟨h1, ?_⟩
  simp [buildSuccessResult, h1, round2]

/-- Witness for C10 at a concrete zero-volatility input. -/
theorem sharpe_ratio_zero_volatility_guard_witness :
    sharpeRatio 1 0 = 0 ∧ (buildSuccessResult [] [] 1 0).sharpe_ratio = 0 :=
  sharpe_ratio_zero_volatility_guard [] [] 1 0 (by norm_num)

/-- C4 counterexample: the annualized return used in the CVXPY objective is NOT
the compounded value `(1 + monthly_mean * w) ^ 12 - 1`; at
`ewm_returns = [0.1]`, `w = [1]` the objective term is `1.2` while the
compounded value is `1.1 ^ 12 - 1`. -/
theorem cvxpy_objective_return_not_compounded :
    cvxpyAnnualizedReturn [1/10] [1] ≠
      compoundedAnnualReturn (dotProduct [1/10] [1]) := by
  simp only [cvxpyAnnualizedReturn, compoundedAnnualReturn, dotProduct,
    List.zipWith, List.sum_cons, List.sum_nil]
  norm_num

/-- C4 amended: the CVXPY objective's annualized-return term is the linear
scaling `12 * (ewm_returns @ w)` (optimizer.py line 67); the compounded formula
`(1 + x) ^ 12 - 1` is used only by `calculate_performance` for the reported
metrics, and whenever `monthly_mean * w ≥ -2` the linear term lower-bounds the
compounded one. -/
theorem cvxpy_objective_return_linear (ewm_returns w : List ℚ)
    (h : -2 ≤ dotProduct ewm_returns w) :
    cvxpyAnnualizedReturn ewm_returns w = 12 * dotProduct ewm_returns w ∧
    cvxpyAnnualizedReturn ewm_returns w ≤
      compoundedAnnualReturn (dotProduct ewm_returns w) := by
  refine ⟨rfl, ?_⟩
  have hb := one_add_mul_le_pow h 12
  rw [cvxpyAnnualizedReturn, compoundedAnnualReturn]
  push_cast at hb
  linarith

/-- Witness for C4's amended statement at `ewm_returns = [0.1]`, `w = [1]`. -/
theorem cvxpy_objective_return_linear_witness :
    cvxpyAnnualizedReturn [1/10] [1] = 12 * dotProduct [1/10] [1] ∧
    cvxpyAnnualizedReturn [1/10] [1] ≤ compoundedAnnualReturn (dotProduct [1/10] [1]) :=
  cvxpy_objective_return_linear [1/10] [1] (by
    simp only [dotProduct, List.zipWith, List.sum_cons, List.sum_nil]
    norm_num)

/-! ### Allocation error behaviour (C2) -/

theorem truncQ_nonpos {x : ℚ} (h : x ≤ 0) : truncQ x ≤ 0 := by
  rw [truncQ]
  split_ifs with h0
  · have hx : x = 0 := le_antisymm h h0
    simp [hx]
  · have h1 : (0 : ℤ) ≤ ⌊-x⌋ := Int.le_floor.mpr (by push_cast; linarith [not_le.mp h0])
    omega

theorem initial_pass_error_of_bad_price (current_prices : String → Option ℚ)
    (investment : ℚ) (weights : List (String × ℚ))
    (h : ∃ p ∈ weights, current_prices p.1 = none ∨ current_prices p.1 = some 0) :
    ∃ e, initial_pass current_prices investment weights = .error e := by
  induction weights with
  | nil => simp at h
  | cons head tail ih =>
    obtain ⟨p, hp, hbad⟩ := h
    obtain ⟨s, w⟩ := head
    rcases List.mem_cons.mp hp with heq | hptail
    · rw [heq] at hbad
      cases hbad with
      | inl h0 => exact ⟨.keyError s, by rw [initial_pass, h0]⟩
      | inr h0 => exact ⟨.zeroDivision, by rw [initial_pass, h0]; simp⟩
    · obtain ⟨e, he⟩ := ih ⟨p, hptail, hbad⟩
      cases hcp : current_prices s with
      | none => exact ⟨.keyError s, by rw [initial_pass, hcp]⟩
      | some price =>
        by_cases hz : price = 0
        · exact ⟨.zeroDivision, by rw [initial_pass, hcp]; simp [hz]⟩
        · exact ⟨e, by rw [initial_pass, hcp]; simp [hz, he]⟩

theorem initial_pass_nonpos_budget_empty (current_prices : String → Option ℚ)
    (investment : ℚ) (weights : List (String × ℚ))
    (hb : investment ≤ 0)
    (hw : ∀ p ∈ weights, 0 ≤ p.2)
    (hp : ∀ p ∈ weights, ∃ q, current_prices p.1 = some q ∧ 0 < q) :
    initial_pass current_prices investment weights = .ok [] := by
  induction weights with
  | nil => rfl
  | cons head tail ih =>
    obtain ⟨s, w⟩ := head
    obtain ⟨q, hq, hq0⟩ := hp (s, w) (List.mem_cons_self _ _)
    have hw0 : 0 ≤ w := hw (s, w) (List.mem_cons_self _ _)
    have htail := ih (fun p hp' => hw p (List.mem_cons_of_mem _ hp'))
      (fun p hp' => hp p (List.mem_cons_of_mem _ hp'))
    have hmul : w * investment ≤ 0 := mul_nonpos_of_nonneg_of_nonpos hw0 hb
    have hsh : truncQ (w * investment / q) ≤ 0 :=
      truncQ_nonpos (div_nonpos_of_nonpos_of_nonneg hmul (le_of_lt hq0))
    rw [initial_pass, hq]
    simp [ne_of_gt hq0, htail, not_lt.mpr hsh]

theorem fill_up_pass_nil_of_nonpos (investment : ℚ) (fuel : ℕ) (hb : investment ≤ 0) :
    fill_up_pass investment (fuel + 1) [] = ([], true) := by
  have hlt : ¬ (totalInvested [] < 0.90 * investment) := by
    simp only [totalInvested, List.map_nil, List.sum_nil, not_lt]
    nlinarith
  rw [fill_up_pass, if_neg hlt]

theorem trim_pass_nil (investment : ℚ) : trim_pass investment [] = [] := by
  rw [trim_pass]
  split_ifs <;> rfl

theorem create_alloc_nonpos_budget (weights : List (String × ℚ))
    (current_prices : String → Option ℚ) (investment : ℚ)
    (hb : investment ≤ 0)
    (hw : ∀ p ∈ weights, 0 ≤ p.2)
    (hp : ∀ p ∈ weights, ∃ q, current_prices p.1 = some q ∧ 0 < q) :
    create_optimized_portfolio_alloc weights current_prices investment =
      .ok ⟨[], 0, investment⟩ := by
  have hip := initial_pass_nonpos_budget_empty current_prices investment weights hb hw hp
  have hfill : fill_up_pass investment (sufficient_fuel investment []) [] = ([], true) :=
    fill_up_pass_nil_of_nonpos investment _ hb
  rw [create_optimized_portfolio_alloc, hip]
  simp [adjust_shares_for_target, hfill, trim_pass_nil, totalInvested]

/-- C2 counterexample: the allocation with a non-positive budget (`-1000`,
weights `{A: 1.0}`, price `400`) raises no error at all — it returns normally
with an empty allocation, refuting the claim that every such request fails with
an `AllocationError` (no such validation, nor any `AllocationError` class,
exists in the code). -/
theorem allocation_nonpositive_budget_no_error :
    create_optimized_portfolio_alloc [("A", 1)] (fun _ => some 400) (-1000) =
      .ok ⟨[], 0, -1000⟩ :=
  create_alloc_nonpos_budget _ _ _ (by norm_num)
    (by
      intro p hp
      rw [List.mem_singleton] at hp
      subst hp
      norm_num)
    (by
      intro p hp
      exact ⟨400, rfl, by norm_num⟩)

/-- C2 amended: the allocation code performs no budget or price validation.  A
missing or zero price for a weighted symbol makes the initial pass raise an
uncaught Python error (`KeyError` / `ZeroDivisionError`) before any fill-up or
trim pass runs, but a non-positive budget (with positive prices and nonnegative
weights) raises nothing: every asset is silently dropped and the allocation
returns normally with an empty position list. -/
theorem allocation_validation_behavior (weights : List (String × ℚ))
    (current_prices : String → Option ℚ) (investment : ℚ) :
    ((∃ p ∈ weights, current_prices p.1 = none ∨ current_prices p.1 = some 0) →
      ∃ e, create_optimized_portfolio_alloc weights current_prices investment =
        .error e) ∧
    (investment ≤ 0 → (∀ p ∈ weights, 0 ≤ p.2) →
      (∀ p ∈ weights, ∃ q, current_prices p.1 = some q ∧ 0 < q) →
      create_optimized_portfolio_alloc weights current_prices investment =
        .ok ⟨[], 0, investment⟩) := by
  constructor
  · intro h
    obtain ⟨e, he⟩ := initial_pass_error_of_bad_price current_prices investment weights h
    exact ⟨e, by rw [create_optimized_portfolio_alloc, he]⟩
  · intro hb hw hp
    exact create_alloc_nonpos_budget _ _ _ hb hw hp

/-- Witness for C2's amended statement: a missing price errors out; a negative
budget returns normally. -/
theorem allocation_validation_behavior_witness :
    (∃ e, create_optimized_portfolio_alloc [("A", 1)] (fun _ => none) 1000 =
      .error e) ∧
    create_optimized_portfolio_alloc [("B", 1)] (fun _ => some 400) (-1000) =
      .ok ⟨[], 0, -1000⟩ := by
  constructor
  · exact (allocation_validation_behavior [("A", 1)] (fun _ => none) 1000).1
      ⟨("A", 1), List.mem_singleton.mpr rfl, Or.inl rfl⟩
  · exact (allocation_validation_behavior [("B", 1)] (fun _ => some 400) (-1000)).2
      (by norm_num)
      (by
        intro p hp
        rw [List.mem_singleton] at hp
        subst hp
        norm_num)
      (by
        intro p hp
        exact ⟨400, rfl, by norm_num⟩)

/-! ### Returns cleaning (C8) -/

theorem cleanColumn_length (col : List RVal) : (cleanColumn col).length = col.length := by
  simp [cleanColumn]

theorem cleanColumn_allNum (col : List RVal) (h : ∃ v ∈ col, v.isNum = true) :
    ∀ u ∈ cleanColumn col, u.isNum = true := by
  obtain ⟨v, hv, hnum⟩ := h
  obtain ⟨q, rfl⟩ : ∃ q, v = .num q := by
    cases v <;> simp [RVal.isNum] at hnum ⊢
  have hv1 : RVal.num q ∈ col.map replaceInfWithNan := by
    have := List.mem_map_of_mem replaceInfWithNan hv
    simpa [replaceInfWithNan] using this
  have hqmem : q ∈ numsOf (col.map replaceInfWithNan) :=
    List.mem_filterMap.mpr ⟨.num q, hv1, rfl⟩
  obtain ⟨μ, hμ⟩ : ∃ μ, colMean (col.map replaceInfWithNan) = .num μ := by
    rw [colMean]
    rw [if_neg]
    · exact ⟨_, rfl⟩
    · intro h0
      rw [List.length_eq_zero] at h0
      rw [h0] at hqmem
      exact absurd hqmem (List.not_mem_nil q)
  intro u hu
  simp only [cleanColumn] at hu
  obtain ⟨w2, hw2, rfl⟩ := List.mem_map.mp hu
  obtain ⟨x1, hx1, rfl⟩ := List.mem_map.mp hw2
  obtain ⟨y, hy, rfl⟩ := List.mem_map.mp hx1
  cases y <;> simp [replaceInfWithNan, fillnaVal, clipVal, hμ, RVal.isNum]

/-- C8: for every return matrix in which every column holds at least one finite
value, the cleaned matrix contains no NaN and no infinity and has the same
shape (same column count and same column lengths) as the input. -/
theorem clean_returns_no_nan_inf_same_shape (columns : List (List RVal))
    (h : ∀ col ∈ columns, ∃ v ∈ col, v.isNum = true) :
    (∀ col ∈ clean_returns_data columns, ∀ u ∈ col, u.isNum = true) ∧
    (clean_returns_data columns).map List.length = columns.map List.length := by
  constructor
  · intro col hcol
    obtain ⟨c0, hc0, rfl⟩ := List.mem_map.mp hcol
    exact cleanColumn_allNum c0 (h c0 hc0)
  · rw [clean_returns_data, List.map_map]
    exact List.map_congr_left (fun a _ => cleanColumn_length a)

/-- Witness for C8 on a concrete dirty matrix with a NaN and an infinity. -/
theorem clean_returns_no_nan_inf_same_shape_witness :
    (∀ col ∈ clean_returns_data [[.num 1, .nan], [.inf, .num 2]],
      ∀ u ∈ col, u.isNum = true) ∧
    (clean_returns_data [[.num 1, .nan], [.inf, .num 2]]).map List.length =
      [[RVal.num 1, .nan], [.inf, .num 2]].map List.length :=
  clean_returns_no_nan_inf_same_shape [[.num 1, .nan], [.inf, .num 2]] (by decide)

/-! ### Termination of the share-adjustment passes (C9) -/

theorem totalInvested_cons (l : Line) (d : List Line) :
    totalInvested (l :: d) = l.amount + totalInvested d := by
  simp [totalInvested]

theorem totalInvested_append (a b : List Line) :
    totalInvested (a ++ b) = totalInvested a + totalInvested b := by
  simp [totalInvested]

theorem totalInvested_reverse (a : List Line) :
    totalInvested a.reverse = totalInvested a := by
  simp [totalInvested, List.sum_reverse]

theorem totalInvested_perm {a b : List Line} (h : a.Perm b) :
    totalInvested a = totalInvested b :=
  List.Perm.sum_eq (h.map _)

theorem sortDesc_perm (d : List Line) : (sortByWeightDesc d).Perm d :=
  List.perm_insertionSort _ d

theorem sortAsc_perm (d : List Line) : (sortByWeightAsc d).Perm d :=
  List.perm_insertionSort _ d

theorem linesGood_of_perm {pmin : ℚ} {a b : List Line} (h : a.Perm b)
    (hg : linesGood pmin a) : linesGood pmin b :=
  fun l hl => hg l (h.mem_iff.mpr hl)

theorem minPrice_le (d : List Line) : ∀ l ∈ d, minPrice d ≤ l.price := by
  induction d with
  | nil => intro l hl; simp at hl
  | cons a t ih =>
    cases t with
    | nil =>
      intro l hl
      rw [List.mem_singleton] at hl
      subst hl
      exact le_refl _
    | cons b t2 =>
      intro l hl
      rw [minPrice]
      rcases List.mem_cons.mp hl with heq | h2
      · subst heq; exact min_le_left _ _
      · exact le_trans (min_le_right _ _) (ih l h2)

theorem minPrice_pos (d : List Line) (h : ∀ l ∈ d, 0 < l.price) : 0 < minPrice d := by
  induction d with
  | nil => norm_num [minPrice]
  | cons a t ih =>
    cases t with
    | nil => exact h a (List.mem_singleton.mpr rfl)
    | cons b t2 =>
      rw [minPrice]
      exact lt_min (h a (List.mem_cons_self _ _))
        (ih (fun l hl => h l (List.mem_cons_of_mem _ hl)))

theorem add_share_spec (maxA t pmin : ℚ) :
    ∀ (d d' : List Line), linesGood pmin d →
      add_share_to_first maxA t d = some d' →
      linesGood pmin d' ∧ ∃ p, pmin ≤ p ∧ totalInvested d' = totalInvested d + p := by
  intro d
  induction d with
  | nil =>
    intro d' _ h
    simp [add_share_to_first] at h
  | cons stock rest ih =>
    intro d' hg h
    rw [add_share_to_first] at h
    by_cases hc : t + stock.price ≤ maxA
    · rw [if_pos hc] at h
      obtain heq := Option.some.inj h
      subst heq
      obtain ⟨hpr, ham⟩ := hg stock (List.mem_cons_self _ _)
      refine ⟨?_, stock.price, hpr, ?_⟩
      · intro l hl
        rcases List.mem_cons.mp hl with heq | h2
        · subst heq
          refine ⟨hpr, ?_⟩
          push_cast
          ring
        · exact hg l (List.mem_cons_of_mem _ h2)
      · rw [totalInvested_cons, totalInvested_cons, ham]
        push_cast
        ring
    · rw [if_neg hc] at h
      cases hrec : add_share_to_first maxA t rest with
      | none => simp [hrec] at h
      | some rest2 =>
        simp only [hrec] at h
        obtain heq := Option.some.inj h
        subst heq
        obtain ⟨hg2, p, hp, htot⟩ :=
          ih rest2 (fun l hl => hg l (List.mem_cons_of_mem _ hl)) hrec
        refine ⟨?_, p, hp, ?_⟩
        · intro l hl
          rcases List.mem_cons.mp hl with heq | h2
          · rw [heq]; exact hg stock (List.mem_cons_self _ _)
          · exact hg2 l h2
        · rw [totalInvested_cons, totalInvested_cons, htot]
          ring

theorem fill_up_normal (investment pmin : ℚ) (hpm : 0 < pmin) (k : ℕ) :
    ∀ d : List Line, linesGood pmin d →
      0.90 * investment - totalInvested d ≤ (k : ℚ) * pmin →
      (fill_up_pass investment (k + 1) d).2 = true ∧
      fillUpStopped investment (fill_up_pass investment (k + 1) d).1 ∧
      linesGood pmin (fill_up_pass investment (k + 1) d).1 := by
  induction k with
  | zero =>
    intro d hg hgap
    have hstop : ¬ (totalInvested d < 0.90 * investment) := by
      push_cast at hgap
      rw [not_lt]
      linarith
    rw [fill_up_pass, if_neg hstop]
    exact ⟨rfl, Or.inl (not_lt.mp hstop), hg⟩
  | succ k ih =>
    intro d hg hgap
    by_cases h1 : totalInvested d < 0.90 * investment
    · rw [fill_up_pass, if_pos h1]
      have hperm := sortDesc_perm d
      have hgs : linesGood pmin (sortByWeightDesc d) := linesGood_of_perm hperm.symm hg
      have htots : totalInvested (sortByWeightDesc d) = totalInvested d :=
        totalInvested_perm hperm
      cases hadd : add_share_to_first (1.02 * investment)
          (totalInvested (sortByWeightDesc d)) (sortByWeightDesc d) with
      | none =>
        simp only [hadd]
        exact ⟨by trivial, Or.inr (Or.inl hadd), hgs⟩
      | some added =>
        simp only [hadd]
        obtain ⟨hga, p, hp, htot⟩ := add_share_spec _ _ _ _ _ hgs hadd
        by_cases h2 : 1.02 * investment ≤ totalInvested added
        · rw [if_pos h2]
          exact ⟨by trivial, Or.inr (Or.inr h2), hga⟩
        · rw [if_neg h2]
          apply ih added hga
          rw [htot, htots]
          push_cast at hgap ⊢
          linarith
    · rw [fill_up_pass, if_neg h1]
      exact ⟨rfl, Or.inl (not_lt.mp h1), hg⟩

theorem trim_shares_loop_spec (maxA others price : ℚ) :
    ∀ (s : ℕ) (amount : ℚ), amount = (s : ℚ) * price →
      (trim_shares_loop maxA others price s amount).2 =
        ((trim_shares_loop maxA others price s amount).1 : ℚ) * price ∧
      (others + (trim_shares_loop maxA others price s amount).2 ≤ maxA ∨
        (trim_shares_loop maxA others price s amount).1 = 0) := by
  intro s
  induction s with
  | zero =>
    intro amount ha
    rw [trim_shares_loop]
    exact ⟨ha, Or.inr rfl⟩
  | succ s ih =>
    intro amount ha
    rw [trim_shares_loop]
    by_cases hc : maxA < others + amount
    · rw [if_pos hc]
      exact ih _ rfl
    · rw [if_neg hc]
      exact ⟨ha, Or.inl (not_lt.mp hc)⟩

theorem totalInvested_zero_of (d : List Line) (h : ∀ l ∈ d, l.amount = 0) :
    totalInvested d = 0 := by
  induction d with
  | nil => rfl
  | cons a t ih =>
    rw [totalInvested_cons, h a (List.mem_cons_self _ _),
      ih (fun l hl => h l (List.mem_cons_of_mem _ hl))]
    ring

theorem trim_loop_le (maxA : ℚ) (hmax : 0 ≤ maxA) :
    ∀ (todo done : List Line),
      (∀ l ∈ done, l.amount = 0) →
      (∀ l ∈ todo, l.amount = (l.shares : ℚ) * l.price) →
      totalInvested (trim_loop maxA done todo) ≤ maxA := by
  intro todo
  induction todo with
  | nil =>
    intro done hd _
    rw [trim_loop, totalInvested_reverse, totalInvested_zero_of done hd]
    exact hmax
  | cons stock rest ih =>
    intro done hd hc
    rw [trim_loop]
    obtain ⟨hr2, hor⟩ := trim_shares_loop_spec maxA
      (totalInvested done + totalInvested rest) stock.price stock.shares stock.amount
      (hc stock (List.mem_cons_self _ _))
    by_cases hb : totalInvested done + totalInvested rest +
        (trim_shares_loop maxA (totalInvested done + totalInvested rest)
          stock.price stock.shares stock.amount).2 ≤ maxA
    · rw [if_pos hb]
      rw [totalInvested_append, totalInvested_reverse, totalInvested_cons]
      linarith
    · rw [if_neg hb]
      have h0 : (trim_shares_loop maxA (totalInvested done + totalInvested rest)
          stock.price stock.shares stock.amount).1 = 0 := by
        rcases hor with h | h
        · exact absurd (by linarith) hb
        · exact h
      apply ih
      · intro l hl
        rcases List.mem_cons.mp hl with heq | h2
        · subst heq
          show (trim_shares_loop maxA (totalInvested done + totalInvested rest)
            stock.price stock.shares stock.amount).2 = 0
          rw [hr2, h0]
          norm_num
        · exact hd l h2
      · exact fun l hl => hc l (List.mem_cons_of_mem _ hl)

/-- C9: for every allocation state with positive budget, strictly positive
prices and consistent amounts, the share-adjustment procedure terminates: the
fill-up loop exits through one of its stop conditions (lower band reached, no
stock can accept a share within the upper band, or the upper band hit by the
last addition) after finitely many iterations, and the subsequent trim pass
leaves the total within the upper band or every held asset at zero shares. -/
theorem share_adjustment_terminates (investment : ℚ) (stock_data : List Line)
    (hb : 0 < investment)
    (hp : ∀ l ∈ stock_data, 0 < l.price)
    (ha : ∀ l ∈ stock_data, l.amount = (l.shares : ℚ) * l.price) :
    ∃ fuel, (fill_up_pass investment fuel stock_data).2 = true ∧
      fillUpStopped investment (fill_up_pass investment fuel stock_data).1 ∧
      (totalInvested (adjust_shares_for_target investment fuel stock_data).1 ≤
          1.02 * investment ∨
        ∀ l ∈ (adjust_shares_for_target investment fuel stock_data).1, l.shares = 0) := by
  have hg : linesGood (minPrice stock_data) stock_data :=
    fun l hl => ⟨minPrice_le _ l hl, ha l hl⟩
  have hpm : 0 < minPrice stock_data := minPrice_pos _ hp
  obtain ⟨k, hk⟩ := exists_nat_ge
    ((0.90 * investment - totalInvested stock_data) / minPrice stock_data)
  have hgap : 0.90 * investment - totalInvested stock_data ≤
      (k : ℚ) * minPrice stock_data := by
    rw [div_le_iff hpm] at hk
    linarith
  obtain ⟨hok, hstop, hga⟩ := fill_up_normal investment _ hpm k stock_data hg hgap
  refine ⟨k + 1, hok, hstop, Or.inl ?_⟩
  show totalInvested (trim_pass investment (fill_up_pass investment (k + 1) stock_data).1) ≤
    1.02 * investment
  rw [trim_pass]
  by_cases htr : 1.02 * investment <
      totalInvested (fill_up_pass investment (k + 1) stock_data).1
  · rw [if_pos htr]
    apply trim_loop_le _ (by linarith) _ []
    · intro l hl
      simp at hl
    · intro l hl
      exact (hga l ((sortAsc_perm _).mem_iff.mp hl)).2
  · rw [if_neg htr]
    exact not_lt.mp htr

/-- Witness for C9 at the concrete state `budget = 1000`,
one held line `A: 2 shares at 400`. -/
theorem share_adjustment_terminates_witness :
    ∃ fuel, (fill_up_pass 1000 fuel [⟨"A", 2, 400, 800, 1⟩]).2 = true ∧
      fillUpStopped 1000 (fill_up_pass 1000 fuel [⟨"A", 2, 400, 800, 1⟩]).1 ∧
      (totalInvested (adjust_shares_for_target 1000 fuel [⟨"A", 2, 400, 800, 1⟩]).1 ≤
          1.02 * 1000 ∨
        ∀ l ∈ (adjust_shares_for_target 1000 fuel [⟨"A", 2, 400, 800, 1⟩]).1,
          l.shares = 0) :=
  share_adjustment_terminates 1000 [⟨"A", 2, 400, 800, 1⟩] (by norm_num)
    (by
      intro l hl
      rw [List.mem_singleton] at hl
      subst hl
      norm_num)
    (by
      intro l hl
      rw [List.mem_singleton] at hl
      subst hl
      push_cast
      norm_num)

/-! ### Concrete allocation trace (C7) -/

theorem sortDesc_singleton (l : Line) : sortByWeightDesc [l] = [l] := by
  simp [sortByWeightDesc, List.insertionSort]

theorem trace_initial :
    initial_pass (fun _ => some 400) 1000 [("A", (1 : ℚ))] =
      .ok [⟨"A", 2, 400, 800, 1⟩] := by
  have h1 : truncQ ((5 : ℚ) / 2) = 2 := by
    rw [truncQ, if_pos (by norm_num)]
    norm_num
  rw [initial_pass]
  norm_num [h1, initial_pass, show Int.toNat 2 = 2 from rfl]

theorem trace_total : totalInvested [⟨"A", 2, 400, 800, 1⟩] = 800 := by
  norm_num [totalInvested]

theorem trace_fuel : sufficient_fuel 1000 [⟨"A", 2, 400, 800, 1⟩] = 2 := by
  rw [sufficient_fuel, trace_total]
  norm_num [minPrice]

theorem trace_add_none :
    add_share_to_first (1.02 * 1000) 800 [⟨"A", 2, 400, 800, 1⟩] = none := by
  rw [add_share_to_first, if_neg (by norm_num)]
  rfl

theorem trace_fill :
    fill_up_pass 1000 2 [⟨"A", 2, 400, 800, 1⟩] = ([⟨"A", 2, 400, 800, 1⟩], true) := by
  show fill_up_pass 1000 (1 + 1) [⟨"A", 2, 400, 800, 1⟩] =
    ([⟨"A", 2, 400, 800, 1⟩], true)
  rw [fill_up_pass, sortDesc_singleton, trace_total, if_pos (by norm_num), trace_add_none]

theorem trace_trim :
    trim_pass 1000 [⟨"A", 2, 400, 800, 1⟩] = [⟨"A", 2, 400, 800, 1⟩] := by
  rw [trim_pass, trace_total, if_neg (by norm_num)]

/-- C7: for `budget = 1000`, `weights = {A: 1.0}`, `price[A] = 400`, the initial
pass yields 2 shares for 800; the fill-up pass cannot add a third share since
`800 + 400 = 1200` exceeds `1.02 * 1000 = 1020`; the final result is
`total_invested = 800` and `remaining = 200`. -/
theorem allocation_trace_budget1000_price400 :
    initial_pass (fun _ => some 400) 1000 [("A", (1 : ℚ))] =
      .ok [⟨"A", 2, 400, 800, 1⟩] ∧
    add_share_to_first (1.02 * 1000) 800 [⟨"A", 2, 400, 800, 1⟩] = none ∧
    create_optimized_portfolio_alloc [("A", (1 : ℚ))] (fun _ => some 400) 1000 =
      .ok ⟨[⟨"A", 2, 400, 800, 1⟩], 800, 200⟩ := by
  refine ⟨trace_initial, trace_add_none, ?_⟩
  rw [create_optimized_portfolio_alloc, trace_initial]
  simp only [adjust_shares_for_target, trace_fuel, trace_fill, trace_trim, trace_total]
  norm_num

/-! ### Weight filtering and renormalization (C3) -/

theorem round4_abs_sub (x : ℚ) : |round4 x - x| ≤ 1 / 20000 := by
  have h := abs_sub_round (x * 10000)
  rw [abs_sub_comm] at h
  rw [round4]
  have key : ((round (x * 10000) : ℤ) : ℚ) / 10000 - x =
      (((round (x * 10000) : ℤ) : ℚ) - x * 10000) / 10000 := by ring
  rw [key, abs_div, abs_of_pos (show (0 : ℚ) < 10000 by norm_num)]
  refine le_trans ((div_le_div_right (show (0 : ℚ) < 10000 by norm_num)).mpr h) ?_
  norm_num

theorem round4_mono {x y : ℚ} (h : x ≤ y) : round4 x ≤ round4 y := by
  rw [round4, round4]
  have h2 : round (x * 10000) ≤ round (y * 10000) := by
    rw [round_eq, round_eq]
    exact Int.floor_mono (by linarith)
  exact (div_le_div_right (show (0 : ℚ) < 10000 by norm_num)).mpr (Int.cast_le.mpr h2)

theorem round4_half_percent : round4 (1 / 200) = 1 / 200 := by
  rw [round4, round_eq]
  norm_num

theorem map_round4_sum (xs : List ℚ) :
    |(xs.map round4).sum - xs.sum| ≤ (xs.length : ℚ) * (1 / 20000) := by
  induction xs with
  | nil => simp
  | cons x t ih =>
    simp only [List.map_cons, List.sum_cons, List.length_cons]
    have h1 := round4_abs_sub x
    have key : round4 x + (t.map round4).sum - (x + t.sum) =
        (round4 x - x) + ((t.map round4).sum - t.sum) := by ring
    rw [key]
    refine le_trans (abs_add _ _) ?_
    push_cast
    linarith [abs_le.mp h1, abs_le.mp ih]

theorem sum_filter_le_sum (xs : List ℚ) (p : ℚ → Bool) (h : ∀ x ∈ xs, 0 ≤ x) :
    (xs.filter p).sum ≤ xs.sum := by
  induction xs with
  | nil => simp
  | cons x t ih =>
    have hx := h x (List.mem_cons_self _ _)
    have iht := ih (fun y hy => h y (List.mem_cons_of_mem _ hy))
    rw [List.filter_cons]
    split_ifs with hp
    · simp only [List.sum_cons]
      linarith
    · simp only [List.sum_cons]
      linarith

theorem length_mul_le_sum (xs : List ℚ) (c : ℚ) (h : ∀ x ∈ xs, c ≤ x) :
    (xs.length : ℚ) * c ≤ xs.sum := by
  induction xs with
  | nil => simp
  | cons x t ih =>
    simp only [List.length_cons, List.sum_cons]
    have hx := h x (List.mem_cons_self _ _)
    have iht := ih (fun y hy => h y (List.mem_cons_of_mem _ hy))
    push_cast
    linarith

theorem sum_map_div (xs : List ℚ) (T : ℚ) :
    (xs.map (fun x => x / T)).sum = xs.sum / T := by
  induction xs with
  | nil => simp
  | cons x t ih =>
    simp only [List.map_cons, List.sum_cons, ih]
    rw [add_div]

theorem filterRound_vals (pairs : List (String × ℚ)) :
    (filterRoundWeights pairs).map (fun p => p.2) =
      ((pairs.map (fun p => p.2)).filter (fun x => decide ((0.005 : ℚ) < x))).map round4 := by
  induction pairs with
  | nil => rfl
  | cons a t ih =>
    simp only [filterRoundWeights] at ih ⊢
    simp only [List.map_cons, List.filter_cons]
    by_cases hp : (0.005 : ℚ) < a.2
    · simp only [hp, decide_True, if_true, List.map_cons, ih]
    · simp [hp, ih]

theorem filterRound_length (pairs : List (String × ℚ)) :
    ((pairs.map (fun p => p.2)).filter (fun x => decide ((0.005 : ℚ) < x))).length =
      (pairs.filter (fun p => decide ((0.005 : ℚ) < p.2))).length := by
  induction pairs with
  | nil => rfl
  | cons a t ih =>
    simp only [List.map_cons, List.filter_cons]
    by_cases hp : (0.005 : ℚ) < a.2
    · simp only [hp, decide_True, if_true, List.length_cons, ih]
    · simp [hp, ih]

/-- C3 counterexample: at raw solver weights
`[A: 0.00501, B: 0.34, C: 0.34, D: 0.31499]` — nonnegative, summing to 1, all
within a 0.35 weight cap — the returned mapping contains the entry
`(A, 0.005)`: an entry AT 0.5%, refuting the claim that no returned entry is at
or below 0.5% (the raw filter keeps `0.00501 > 0.005`, and `round(·, 4)` lowers
it to exactly `0.005`). -/
theorem filter_weights_entry_at_half_percent :
    (∃ p ∈ filterNormalizeWeights
        [("A", (0.00501 : ℚ)), ("B", 0.34), ("C", 0.34), ("D", 0.31499)],
      p.2 ≤ 0.005) ∧
    ((0.00501 : ℚ) + 0.34 + 0.34 + 0.31499 = 1) ∧
    (∀ p ∈ [("A", (0.00501 : ℚ)), ("B", 0.34), ("C", 0.34), ("D", 0.31499)],
      0 ≤ p.2 ∧ p.2 ≤ 0.35) := by
  have hout : filterNormalizeWeights
      [("A", (0.00501 : ℚ)), ("B", 0.34), ("C", 0.34), ("D", 0.31499)] =
      [("A", 1/200), ("B", 17/50), ("C", 17/50), ("D", 63/200)] := by
    norm_num [filterNormalizeWeights, filterRoundWeights, renormalizeWeights,
      valsSum, round4, round_eq, List.filter_cons, decide_eq_true_eq]
  refine ⟨⟨("A", 1/200), ?_, by norm_num⟩, by norm_num, ?_⟩
  · rw [hout]
    exact List.mem_cons_self _ _
  · intro p hp
    fin_cases hp <;> norm_num

/-- C3 amended: entries are kept only when their raw weight strictly exceeds
0.5%; every returned entry is at least 0.5% (it may equal exactly 0.5% after
rounding to 4 decimals), and — provided at least one and at most 20 raw weights
exceed 0.5% — the returned weights sum to 1 within 1e-3. -/
theorem filter_normalize_weights_bounds (pairs : List (String × ℚ))
    (hnn : ∀ p ∈ pairs, 0 ≤ p.2)
    (hsum : (pairs.map (fun p => p.2)).sum = 1)
    (hk20 : (pairs.filter (fun p => decide ((0.005 : ℚ) < p.2))).length ≤ 20)
    (hk1 : 1 ≤ (pairs.filter (fun p => decide ((0.005 : ℚ) < p.2))).length) :
    (∀ p ∈ filterNormalizeWeights pairs, (0.005 : ℚ) ≤ p.2) ∧
    |valsSum (filterNormalizeWeights pairs) - 1| ≤ 0.001 := by
  have h005 : (0.005 : ℚ) = 1 / 200 := by norm_num
  have hvals : (filterRoundWeights pairs).map (fun p => p.2) =
      ((pairs.map (fun p => p.2)).filter (fun x => decide ((0.005 : ℚ) < x))).map round4 :=
    filterRound_vals pairs
  have hlen : ((pairs.map (fun p => p.2)).filter
      (fun x => decide ((0.005 : ℚ) < x))).length =
      (pairs.filter (fun p => decide ((0.005 : ℚ) < p.2))).length :=
    filterRound_length pairs
  have hRmem : ∀ x ∈ (pairs.map (fun p => p.2)).filter
      (fun x => decide ((0.005 : ℚ) < x)), (0.005 : ℚ) < x := by
    intro x hx
    have := (List.mem_filter.mp hx).2
    simpa using this
  have hRsum : ((pairs.map (fun p => p.2)).filter
      (fun x => decide ((0.005 : ℚ) < x))).sum ≤ 1 := by
    refine le_trans (sum_filter_le_sum _ _ ?_) (le_of_eq hsum)
    intro x hx
    obtain ⟨p, hp, rfl⟩ := List.mem_map.mp hx
    exact hnn p hp
  have hmem4 : ∀ y ∈ (filterRoundWeights pairs).map (fun p => p.2), (1 : ℚ) / 200 ≤ y := by
    rw [hvals]
    intro y hy
    obtain ⟨x, hx, rfl⟩ := List.mem_map.mp hy
    rw [← round4_half_percent]
    exact round4_mono (by linarith [hRmem x hx, h005.symm ▸ hRmem x hx])
  have hT : valsSum (filterRoundWeights pairs) =
      ((filterRoundWeights pairs).map (fun p => p.2)).sum := rfl
  have hTpos : 0 < valsSum (filterRoundWeights pairs) := by
    rw [hT]
    have hlb := length_mul_le_sum _ _ hmem4
    have hlen1 : 1 ≤ (((filterRoundWeights pairs).map (fun p => p.2)).length : ℚ) := by
      rw [hvals, List.length_map, hlen]
      exact_mod_cast hk1
    nlinarith
  have hTupper : valsSum (filterRoundWeights pairs) ≤ 1.001 := by
    rw [hT, hvals]
    have hb := map_round4_sum ((pairs.map (fun p => p.2)).filter
      (fun x => decide ((0.005 : ℚ) < x)))
    have hlb := (abs_le.mp hb).2
    have hl20 : (((pairs.map (fun p => p.2)).filter
        (fun x => decide ((0.005 : ℚ) < x))).length : ℚ) ≤ 20 := by
      rw [hlen]
      exact_mod_cast hk20
    have hε : (((pairs.map (fun p => p.2)).filter
        (fun x => decide ((0.005 : ℚ) < x))).length : ℚ) * (1 / 20000) ≤ 1 / 1000 := by
      linarith
    have := hRsum
    norm_num
    linarith
  rw [filterNormalizeWeights, renormalizeWeights]
  by_cases hlt : valsSum (filterRoundWeights pairs) < 0.999
  · rw [if_pos hlt]
    have hvals2 : ((filterRoundWeights pairs).map (fun p =>
        (p.1, round4 (p.2 / valsSum (filterRoundWeights pairs))))).map (fun p => p.2) =
        (((filterRoundWeights pairs).map (fun p => p.2)).map
          (fun x => x / valsSum (filterRoundWeights pairs))).map round4 := by
      rw [List.map_map, List.map_map, List.map_map]
      rfl
    constructor
    · intro p hp
      obtain ⟨q, hq, rfl⟩ := List.mem_map.mp hp
      have hq2 : (1 : ℚ) / 200 ≤ q.2 :=
        hmem4 q.2 (List.mem_map_of_mem (fun p => p.2) hq)
      have hdiv : q.2 ≤ q.2 / valsSum (filterRoundWeights pairs) := by
        rw [le_div_iff hTpos]
        have : q.2 * valsSum (filterRoundWeights pairs) ≤ q.2 * 1 :=
          mul_le_mul_of_nonneg_left (by linarith) (by linarith)
        linarith
      show (0.005 : ℚ) ≤ round4 (q.2 / valsSum (filterRoundWeights pairs))
      rw [h005, ← round4_half_percent]
      exact round4_mono (le_trans hq2 hdiv)
    · show |valsSum ((filterRoundWeights pairs).map (fun p =>
        (p.1, round4 (p.2 / valsSum (filterRoundWeights pairs))))) - 1| ≤ 0.001
      rw [valsSum, hvals2]
      have hSsum : (((filterRoundWeights pairs).map (fun p => p.2)).map
          (fun x => x / valsSum (filterRoundWeights pairs))).sum = 1 := by
        rw [sum_map_div, ← hT, div_self (ne_of_gt hTpos)]
      have hb := map_round4_sum (((filterRoundWeights pairs).map (fun p => p.2)).map
        (fun x => x / valsSum (filterRoundWeights pairs)))
      rw [hSsum] at hb
      have hlS : ((((filterRoundWeights pairs).map (fun p => p.2)).map
          (fun x => x / valsSum (filterRoundWeights pairs))).length : ℚ) ≤ 20 := by
        rw [List.length_map, hvals, List.length_map, hlen]
        exact_mod_cast hk20
    -- |sum − 1| ≤ len * (1/20000) ≤ 20/20000 = 1/1000
      have h1 := (abs_le.mp hb).1
      have h2 := (abs_le.mp hb).2
      rw [abs_le]
      constructor <;> [skip; skip] <;> nlinarith [hlS, h1, h2]
  · rw [if_neg hlt]
    constructor
    · intro p hp
      have := hmem4 p.2 (List.mem_map_of_mem (fun p => p.2) hp)
      linarith [h005.symm ▸ this]
    · rw [abs_le]
      have hge : (0.999 : ℚ) ≤ valsSum (filterRoundWeights pairs) := not_lt.mp hlt
      constructor
      · linarith
      · linarith [hTupper]

/-- Witness for C3's amended statement at raw weights `[A: 0.5, B: 0.5]`. -/
theorem filter_normalize_weights_bounds_witness :
    (∀ p ∈ filterNormalizeWeights [("A", (1/2 : ℚ)), ("B", 1/2)], (0.005 : ℚ) ≤ p.2) ∧
    |valsSum (filterNormalizeWeights [("A", (1/2 : ℚ)), ("B", 1/2)]) - 1| ≤ 0.001 :=
  filter_normalize_weights_bounds [("A", (1/2 : ℚ)), ("B", 1/2)]
    (by
      intro p hp
      fin_cases hp <;> norm_num)
    (by norm_num)
    (by norm_num [List.filter_cons, decide_eq_true_eq])
    (by norm_num [List.filter_cons, decide_eq_true_eq])

end PortfolioOptimizer
